import Mathlib

/-!
Verification development for the core of `protoc-gen-mdbook`
(`src/proto.rs` and `src/render.rs`): a shallow embedding of the
descriptor-resolution and documentation-model construction code, together
with theorems settling the specification claims.

Conventions of the embedding:
* prost descriptor messages become structures whose optional protobuf
  fields are `Option`; prost's defaulting getters (`name()`, `number()`,
  ...) are modelled by `Option.getD` with the protobuf default.
* Rust functions that can panic (`unwrap()`, out-of-range slicing) are
  modelled as `Option`-returning functions where `none` is the panic:
  a process abort, not a returned error value.
* `HashMap<String, Vec<Types>>` is modelled as an association list with
  unique keys (`AllTypes`); `get` is first-key lookup and
  `entry().or_default().append(...)` is `insertAppend`.
* Strings are indexed by character position; the code only ever searches
  for the ASCII `'.'`, where Rust's byte indices and character indices
  agree on the inputs of interest.
* The recursion of `render::gather_types` is not structurally bounded
  (and in fact diverges on cyclic type graphs), so it is embedded as a
  step-indexed abstract machine: the fuel bounds the total number of
  steps, `none` means the budget is exhausted, and for every run that the
  Rust function finishes there is a fuel making the machine return the
  same list.
-/

namespace ProtocGenMdbook

/-- The wire scalar kinds of `prost_types::field_descriptor_proto::Type`. -/
inductive ScalarType where
  | double | float | int64 | uint64 | int32 | fixed64 | fixed32 | bool
  | string | group | message | bytes | uint32 | enum | sfixed32 | sfixed64
  | sint32 | sint64
deriving DecidableEq

/-- `scalar_type_name` from `src/proto.rs`: the `.proto` keyword of each
well-known kind; the `Message` kind maps to the empty string. -/
def scalar_type_name : ScalarType → String
  | .double => "double"
  | .float => "float"
  | .int64 => "int64"
  | .uint64 => "uint64"
  | .int32 => "int32"
  | .fixed32 => "fixed32"
  | .fixed64 => "fixed64"
  | .bool => "bool"
  | .string => "string"
  | .group => "group"
  | .message => ""
  | .bytes => "bytes"
  | .uint32 => "uint32"
  | .enum => "enum"
  | .sfixed32 => "sfixed32"
  | .sfixed64 => "sfixed64"
  | .sint32 => "sint32"
  | .sint64 => "sint64"

/-- The numeric value of `field_descriptor_proto::Label::Repeated`. -/
def labelRepeated : Int := 3

/-- `prost_types::FieldDescriptorProto` (the fields the code reads). -/
structure FieldDescriptorProto where
  name : Option String
  number : Option Int
  label : Option Int
  ty : Option ScalarType
  type_name : Option String
  proto3_optional : Option Bool
deriving DecidableEq

/-- `prost_types::EnumValueDescriptorProto` (the fields the code reads). -/
structure EnumValueDescriptorProto where
  name : Option String
  number : Option Int
deriving DecidableEq

/-- `prost_types::EnumDescriptorProto` (the fields the code reads). -/
structure EnumDescriptorProto where
  name : Option String
  value : List EnumValueDescriptorProto
deriving DecidableEq

/-- `prost_types::DescriptorProto` (the fields the code reads, plus
`enum_type`, which the code never reads: enums nested inside messages are
ignored by the generator). Nested message declarations make this type
recursive. -/
inductive DescriptorProto where
  | mk (name : Option String) (field : List FieldDescriptorProto)
      (nested_type : List DescriptorProto)
      (enum_type : List EnumDescriptorProto)

/-- Field projections of `DescriptorProto`. -/
def DescriptorProto.name : DescriptorProto → Option String
  | .mk n _ _ _ => n

def DescriptorProto.field : DescriptorProto → List FieldDescriptorProto
  | .mk _ f _ _ => f

def DescriptorProto.nested_type : DescriptorProto → List DescriptorProto
  | .mk _ _ n _ => n

def DescriptorProto.enum_type : DescriptorProto → List EnumDescriptorProto
  | .mk _ _ _ e => e

/-- `prost_types::MethodOptions` (the field the code reads). -/
structure MethodOptions where
  deprecated : Option Bool
deriving DecidableEq

/-- `prost_types::MethodDescriptorProto` (the fields the code reads). -/
structure MethodDescriptorProto where
  name : Option String
  input_type : Option String
  output_type : Option String
  options : Option MethodOptions
  client_streaming : Option Bool
  server_streaming : Option Bool
deriving DecidableEq

/-- One `source_code_info.location` entry: a structural path plus the
attached comments (the fields the code reads). -/
structure Location where
  path : List Int
  leading_comments : Option String
  trailing_comments : Option String
deriving DecidableEq

/-- `prost_types::SourceCodeInfo`. -/
structure SourceCodeInfo where
  location : List Location
deriving DecidableEq

/-- `prost_types::FileDescriptorProto` (the fields `get_types` reads). -/
structure FileDescriptorProto where
  name : Option String
  package : Option String
  message_type : List DescriptorProto
  enum_type : List EnumDescriptorProto
  source_code_info : Option SourceCodeInfo

/-- `prost_types::compiler::CodeGeneratorRequest` (the field `get_types`
reads). -/
structure CodeGeneratorRequest where
  proto_file : List FileDescriptorProto

/-- `FullyQualifiedTypeName<'a>` from `src/proto.rs`: an absolute dotted
type reference split into package path and local type name. -/
structure FullyQualifiedTypeName where
  original : String
  /-- Package path without the leading dot. -/
  package : String
  /-- Just the type name without the package path. -/
  name : String
deriving DecidableEq

/-- `CustomType<'a>` from `src/proto.rs`. -/
structure CustomType where
  name : FullyQualifiedTypeName
deriving DecidableEq

/-- `FieldType<'a>` from `src/proto.rs`: either a well-known proto type or
a custom message type. -/
inductive FieldType where
  | wellKnown (ty : ScalarType)
  | custom (ty : CustomType)
deriving DecidableEq

/-- `FieldType::name`. -/
def FieldType.name : FieldType → String
  | .wellKnown ty => scalar_type_name ty
  | .custom ty => ty.name.name

/-- `Field<'a>` from `src/proto.rs`. -/
structure Field where
  name : String
  ty : FieldType
  number : Int
  optional : Bool
  repeated : Bool
  leading_comments : String
  trailing_comments : String
deriving DecidableEq

/-- `MessageType<'a>` from `src/proto.rs`; recursive through the list of
nested message declarations. -/
inductive MessageType where
  | mk (name : String) (description : String) (fields : List Field)
      (nested : List MessageType) (depth : Nat)

/-- Field projections of `MessageType`. -/
def MessageType.name : MessageType → String
  | .mk n _ _ _ _ => n

def MessageType.description : MessageType → String
  | .mk _ d _ _ _ => d

def MessageType.fields : MessageType → List Field
  | .mk _ _ f _ _ => f

def MessageType.nested : MessageType → List MessageType
  | .mk _ _ _ n _ => n

def MessageType.depth : MessageType → Nat
  | .mk _ _ _ _ d => d

/-- `EnumValue<'a>` from `src/proto.rs`. -/
structure EnumValue where
  name : String
  number : Int
  leading_comments : String
  trailing_comments : String
deriving DecidableEq

/-- `EnumType<'a>` from `src/proto.rs`. -/
structure EnumType where
  name : String
  description : String
  values : List EnumValue
deriving DecidableEq

/-- `Types<'a>` from `src/proto.rs`: the closed message/enum variant. -/
inductive Types where
  | message (ty : MessageType)
  | enum (ty : EnumType)

mutual

/-- Structural equality on `MessageType`, mirroring the derived
`PartialEq` of the Rust struct (all fields compared, nested messages
recursively). -/
def MessageType.beq : MessageType → MessageType → Bool
  | .mk n d f ns dep, .mk n' d' f' ns' dep' =>
    n == n' && d == d' && f == f' && MessageType.beqList ns ns' && dep == dep'

/-- Elementwise `MessageType.beq`, mirroring `PartialEq` on
`Vec<MessageType>`. -/
def MessageType.beqList : List MessageType → List MessageType → Bool
  | [], [] => true
  | x :: xs, y :: ys => MessageType.beq x y && MessageType.beqList xs ys
  | _, _ => false

end

/-- Structural equality on `Types`, mirroring the derived `PartialEq` of
the Rust enum (used by `Vec::contains` in `render::gather_types`). -/
def Types.beq : Types → Types → Bool
  | .message a, .message b => MessageType.beq a b
  | .enum a, .enum b => a == b
  | _, _ => false

/-- `Types::has_name` from `src/proto.rs`. -/
def Types.has_name : Types → String → Bool
  | .message ty, name => ty.name == name
  | .enum ty, name => ty.name == name

/-- `CallType` from `src/proto.rs`. -/
inductive CallType where
  | unary
  | serverStreaming
  | clientStreaming
  | bidiStreaming
deriving DecidableEq

/-- `Method<'a>` from `src/proto.rs`; the Rust borrows `input_type` and
`output_type` from the index, here they are held by value. -/
structure Method where
  name : String
  call_type : CallType
  description : String
  deprecated : Bool
  input_type : Types
  output_type : Types

/-- `Service<'a>` from `src/proto.rs`. -/
structure Service where
  name : String
  package : String
  description : String
  deprecated : Bool
  methods : List Method

/-- `AllTypes<'a> = HashMap<String, Vec<Types>>` from `src/proto.rs`,
modelled as an association list with unique keys. -/
def AllTypes := List (String × List Types)

/-- `HashMap::get`: the bucket stored under `key`, if any. -/
def lookupPkg (types : AllTypes) (key : String) : Option (List Types) :=
  (types.find? (fun e => e.1 == key)).map (fun e => e.2)

/-- `HashMap::entry(key).or_default().append(vs)`: append `vs` to the
bucket of `key`, creating the bucket if absent. -/
def insertAppend (types : AllTypes) (key : String) (vs : List Types) : AllTypes :=
  match types with
  | [] => [(key, vs)]
  | (k, b) :: rest =>
    if k == key then (k, b ++ vs) :: rest else (k, b) :: insertAppend rest key vs

/-- Index (from the front) of the first occurrence of `c`, as in Rust's
`str::find` (character positions; the code only searches for the ASCII
dot, where byte and character indices coincide). -/
def find_char : List Char → Char → Option Nat
  | [], _ => none
  | a :: as, c => if a == c then some 0 else (find_char as c).map (· + 1)

/-- Index of the last occurrence of `c`, as in Rust's `str::rfind`. -/
def rfind_char : List Char → Char → Option Nat
  | [], _ => none
  | a :: as, c =>
    match rfind_char as c with
    | some i => some (i + 1)
    | none => if a == c then some 0 else none

/-- `impl From<&'a str> for FullyQualifiedTypeName<'a>` from
`src/proto.rs`. The Rust conversion is infallible in its signature but
panics via `unwrap()` when the string has no dot, and via slicing
(`&original[start + 1..end]` with `start = end`) when it has exactly one;
`none` models those panics, which abort the process. -/
def FullyQualifiedTypeName.fromString (original : String) : Option FullyQualifiedTypeName :=
  match find_char original.data '.', rfind_char original.data '.' with
  | some start, some stop =>
    if start + 1 ≤ stop then
      some { original,
             package := String.mk ((original.data.drop (start + 1)).take (stop - (start + 1))),
             name := String.mk (original.data.drop (stop + 1)) }
    else
      none
  | _, _ => none

/-- `get_description` from `src/proto.rs`: leading comments of the first
location whose path equals `path` exactly, or the empty string. -/
def get_description (info : SourceCodeInfo) (path : List Int) : String :=
  ((info.location.find? (fun l => l.path == path)).map
    (fun l => l.leading_comments.getD "")).getD ""

/-- Ordering of fields by field number, the comparator of
`fields.sort_by(|a, b| a.number.cmp(&b.number))`. -/
def Field.numberLE (a b : Field) : Prop := a.number ≤ b.number

instance : DecidableRel Field.numberLE :=
  fun a b => (inferInstance : Decidable (a.number ≤ b.number))

instance : IsTotal Field Field.numberLE := ⟨fun a b => Int.le_total a.number b.number⟩

instance : IsTrans Field Field.numberLE := ⟨fun _ _ _ h h' => le_trans h h'⟩

/-- Ordering of enum values by number, the comparator of
`values.sort_by(|a, b| a.number.cmp(&b.number))`. -/
def EnumValue.numberLE (a b : EnumValue) : Prop := a.number ≤ b.number

instance : DecidableRel EnumValue.numberLE :=
  fun a b => (inferInstance : Decidable (a.number ≤ b.number))

instance : IsTotal EnumValue EnumValue.numberLE := ⟨fun a b => Int.le_total a.number b.number⟩

instance : IsTrans EnumValue EnumValue.numberLE := ⟨fun _ _ _ h h' => le_trans h h'⟩

/-- `impl From<&'a FieldDescriptorProto> for FieldType<'a>`: a field is
`Custom` exactly when its descriptor carries an explicit `type_name`;
parsing that reference can panic (`none`). -/
def FieldType.fromDesc (field : FieldDescriptorProto) : Option FieldType :=
  match field.type_name with
  | some type_name =>
    (FullyQualifiedTypeName.fromString type_name).map (fun n => FieldType.custom ⟨n⟩)
  | none => some (FieldType.wellKnown (field.ty.getD ScalarType.double))

/-- `Field::from` from `src/proto.rs`; `none` propagates the panic of a
malformed `type_name`. -/
def Field.fromDesc (field : FieldDescriptorProto) (info : SourceCodeInfo)
    (path : List Int) : Option Field := do
  let ty ← FieldType.fromDesc field
  let location := info.location.find? (fun l => l.path == path)
  let leading_comments := (location.map (fun l => l.leading_comments.getD "")).getD ""
  let trailing_comments := (location.map (fun l => l.trailing_comments.getD "")).getD ""
  let repeated := (field.label.map (fun l => l == labelRepeated)).getD false
  some { name := field.name.getD "", ty, number := field.number.getD 0,
         optional := field.proto3_optional.getD false, repeated,
         leading_comments, trailing_comments }

/-- Rust's `str::trim_end`: remove trailing whitespace characters (the
code's comments are ASCII, where Rust's Unicode `char::is_whitespace` and
`Char.isWhitespace` agree). -/
def trim_end (s : String) : String :=
  String.mk (s.data.reverse.dropWhile Char.isWhitespace).reverse

/-- `EnumValue::from` from `src/proto.rs`: only the trailing comment is
`trim_end()`ed. -/
def EnumValue.fromDesc (value : EnumValueDescriptorProto) (info : SourceCodeInfo)
    (path : List Int) : EnumValue :=
  let location := info.location.find? (fun l => l.path == path)
  { name := value.name.getD "", number := value.number.getD 0,
    leading_comments := (location.map (fun l => l.leading_comments.getD "")).getD "",
    trailing_comments := (location.map (fun l => trim_end (l.trailing_comments.getD ""))).getD "" }

/-- `EnumType::from` from `src/proto.rs`: values built at paths
`[5, idx, 2, i]`, then stably sorted by ascending number
(`Vec::sort_by` is a stable sort, modelled by insertion sort). -/
def EnumType.fromDesc (enum_type : EnumDescriptorProto) (idx : Int)
    (info : SourceCodeInfo) : EnumType :=
  let description := get_description info [5, idx]
  let values := enum_type.value.enum.map
    (fun p => EnumValue.fromDesc p.2 info [5, idx, 2, Int.ofNat p.1])
  { name := enum_type.name.getD "", description,
    values := List.insertionSort EnumValue.numberLE values }

mutual

/-- `MessageType::from` from `src/proto.rs`: fields built at paths
`[4, idx, 2, i]` and stably sorted by ascending number; nested message
declarations are built recursively with the parent's `idx` and an
incremented depth, and stored in the `nested` list (not flattened into
any package bucket). `none` propagates a field's `type_name` panic. -/
def MessageType.fromDesc (message_type : DescriptorProto) (idx : Int)
    (info : SourceCodeInfo) (depth : Nat) : Option MessageType :=
  match message_type with
  | .mk name dfields dnested _denums => do
    let description := get_description info [4, idx]
    let fields ← dfields.enum.mapM
      (fun p => Field.fromDesc p.2 info [4, idx, 2, Int.ofNat p.1])
    let nested ← MessageType.fromDescList dnested idx info (depth + 1)
    some (.mk (name.getD "") description
      (List.insertionSort Field.numberLE fields) nested depth)

/-- The `message_type.nested_type.iter().map(...).collect()` loop of
`MessageType::from`. -/
def MessageType.fromDescList (ds : List DescriptorProto) (idx : Int)
    (info : SourceCodeInfo) (depth : Nat) : Option (List MessageType) :=
  match ds with
  | [] => some []
  | d :: rest => do
    let m ← MessageType.fromDesc d idx info depth
    let ms ← MessageType.fromDescList rest idx info depth
    some (m :: ms)

end

/-- One iteration of the `for proto in &request.proto_file` loop of
`get_types` from `src/proto.rs`: append the file's top-level message
types (depth 0) and then its top-level enum types to the bucket of the
file's package. `none` models the `source_code_info.as_ref().unwrap()`
panic on a file without source info and the panic on a malformed field
`type_name`. -/
def get_types_step (result : AllTypes) (proto : FileDescriptorProto) : Option AllTypes := do
  let package := proto.package.getD ""
  let info ← proto.source_code_info
  let message_types ← proto.message_type.enum.mapM
    (fun p => (MessageType.fromDesc p.2 (Int.ofNat p.1) info 0).map Types.message)
  let result := insertAppend result package message_types
  let enum_types := proto.enum_type.enum.map
    (fun p => Types.enum (EnumType.fromDesc p.2 (Int.ofNat p.1) info))
  some (insertAppend result package enum_types)

/-- `get_types` from `src/proto.rs`: the loop over all files, starting
from the empty index. -/
def get_types (request : CodeGeneratorRequest) : Option AllTypes :=
  request.proto_file.foldlM get_types_step []

/-- `impl From<&MethodDescriptorProto> for CallType`: classification from
the two independent streaming flags. -/
def CallType.fromDesc (method : MethodDescriptorProto) : CallType :=
  match method.server_streaming.getD false, method.client_streaming.getD false with
  | true, true => .bidiStreaming
  | true, false => .serverStreaming
  | false, true => .clientStreaming
  | false, false => .unary

/-- `Method::from` from `src/proto.rs`. The Rust pushes `idx` onto `path`
for the comment lookup and pops it again, modelled by `path ++ [idx]`.
NOTE the faithful translation of the Rust binding
`let types = types.get(name.package).unwrap();`, which shadows the whole
index with the input type's bucket: the output type is then looked up in
that same bucket, not in the output name's own package bucket. `none`
models the `unwrap()` panics (malformed reference, missing bucket,
missing type). -/
def Method.fromDesc (method : MethodDescriptorProto) (types : AllTypes)
    (path : List Int) (idx : Int) (info : SourceCodeInfo) : Option Method := do
  let description := get_description info (path ++ [idx])
  let name ← FullyQualifiedTypeName.fromString (method.input_type.getD "")
  let bucket ← lookupPkg types name.package
  let input_type ← bucket.find? (fun ty => ty.has_name name.name)
  let name ← FullyQualifiedTypeName.fromString (method.output_type.getD "")
  let output_type ← bucket.find? (fun ty => ty.has_name name.name)
  let deprecated := (method.options.bind (fun opt => opt.deprecated)).getD false
  some { name := method.name.getD "", call_type := CallType.fromDesc method,
         description, deprecated, input_type, output_type }

namespace Render

/-- `render::Method<'a>` from `src/render.rs`. -/
structure Method where
  name : String
  call_type : CallType
  description : String
  deprecated : Bool
  input_types : List Types
  output_types : List Types

/-- `render::Service<'a>` from `src/render.rs`. -/
structure Service where
  name : String
  package : String
  description : String
  deprecated : Bool
  methods : List Method
  deprecated_methods : List Method

/-- Control state of the step-indexed embedding of
`render::gather_types`. `top ty` is entry into `gather_types(ty, types)`;
`fields fs acc` is the outer `for field in &ty.fields` loop with the
activation's local `result` vector `acc`; `bucket fname b acc` is the
inner `for custom_type in custom_types` loop searching for a field whose
`field.ty.name()` is `fname`. -/
inductive GatherFrame where
  | top (ty : Types)
  | fields (fs : List Field) (acc : List Types)
  | bucket (fname : String) (b : List Types) (acc : List Types)

/-- Step-indexed embedding of `render::gather_types` from
`src/render.rs`. Every constructor of the Rust control flow consumes one
unit of fuel; `none` means the step budget is exhausted, so the Rust
function diverges on an input exactly when this returns `none` for every
fuel. Note that each recursive activation starts with its own empty
`result` vector (`.top ty` continues as `.fields ty.fields []`), so the
`!result.contains(&custom_type)` membership test — `acc.any (Types.beq ct)`
here — only consults the current activation's accumulator. -/
def gather_step (fuel : Nat) (frame : GatherFrame) (types : AllTypes) :
    Option (List Types) :=
  match fuel, frame with
  | 0, _ => none
  | _ + 1, .top (.enum _) => some []
  | n + 1, .top (.message m) => gather_step n (.fields m.fields []) types
  | _ + 1, .fields [] acc => some acc
  | n + 1, .fields (f :: fs) acc =>
    match f.ty with
    | .wellKnown _ => gather_step n (.fields fs acc) types
    | .custom custom =>
      match lookupPkg types custom.name.package with
      | none => gather_step n (.fields fs acc) types
      | some custom_types =>
        (gather_step n (.bucket f.ty.name custom_types acc) types).bind
          (fun acc' => gather_step n (.fields fs acc') types)
  | _ + 1, .bucket _ [] acc => some acc
  | n + 1, .bucket fname (custom_type :: rest) acc =>
    if custom_type.has_name fname && !(acc.any (Types.beq custom_type)) then
      (gather_step n (.top custom_type) types).bind
        (fun sub => gather_step n (.bucket fname rest (acc ++ custom_type :: sub)) types)
    else
      gather_step n (.bucket fname rest acc) types

/-- `render::gather_types` itself, at a given step budget. -/
def gather_types (fuel : Nat) (ty : Types) (types : AllTypes) : Option (List Types) :=
  gather_step fuel (.top ty) types

/-- `render::Method::from` from `src/render.rs`: the method's self-
contained type lists are `[T] ++ closure(T)` for its input and output
type. -/
def Method.fromProto (fuel : Nat) (value : ProtocGenMdbook.Method) (types : AllTypes) :
    Option Method := do
  let additional ← gather_types fuel value.input_type types
  let input_types := value.input_type :: additional
  let additional ← gather_types fuel value.output_type types
  let output_types := value.output_type :: additional
  some { name := value.name, call_type := value.call_type,
         deprecated := value.deprecated, description := value.description,
         input_types, output_types }

/-- `render::Service::from` from `src/render.rs`:
`partition(|m| m.deprecated)` on the iterator keeps each side in
iteration order, i.e. equals the two complementary order-preserving
filters. -/
def Service.fromProto (fuel : Nat) (value : ProtocGenMdbook.Service) (types : AllTypes) :
    Option Service := do
  let ms ← value.methods.mapM (fun m => Method.fromProto fuel m types)
  some { name := value.name, package := value.package,
         description := value.description, deprecated := value.deprecated,
         methods := ms.filter (fun m => !m.deprecated),
         deprecated_methods := ms.filter (fun m => m.deprecated) }

end Render

/-! ## Lemmas about character search, supporting the claims on
`FullyQualifiedTypeName::from`. -/

theorem find_char_eq_none_of_count_zero (l : List Char) (c : Char)
    (h : l.count c = 0) : find_char l c = none := by
  induction l with
  | nil => rfl
  | cons a as ih =>
    rw [List.count_cons] at h
    rcases hb : (a == c) with _ | _
    · rw [hb] at h
      simp at h
      simp [find_char, hb, ih h]
    · rw [hb] at h
      simp at h

theorem rfind_char_eq_none_of_count_zero (l : List Char) (c : Char)
    (h : l.count c = 0) : rfind_char l c = none := by
  induction l with
  | nil => rfl
  | cons a as ih =>
    rw [List.count_cons] at h
    rcases hb : (a == c) with _ | _
    · rw [hb] at h
      simp at h
      simp [rfind_char, hb, ih h]
    · rw [hb] at h
      simp at h

theorem rfind_le_find_of_count_le_one (l : List Char) (c : Char)
    (h : l.count c ≤ 1) :
    ∀ i j, find_char l c = some i → rfind_char l c = some j → j ≤ i := by
  induction l with
  | nil => intro i j hf _; simp [find_char] at hf
  | cons a as ih =>
    intro i j hf hr
    rw [List.count_cons] at h
    rcases hb : (a == c) with _ | _
    · rw [hb] at h
      simp at h
      rw [find_char, if_neg (by simp [hb])] at hf
      rw [rfind_char] at hr
      rcases hfa : find_char as c with _ | i₀
      · rw [hfa] at hf; simp at hf
      · rw [hfa] at hf
        simp at hf
        rcases hra : rfind_char as c with _ | j₀
        · rw [hra, hb] at hr; simp at hr
        · rw [hra] at hr
          simp at hr
          have hle := ih h i₀ j₀ hfa hra
          omega
    · rw [hb] at h
      simp at h
      have hcnt : as.count c = 0 := by omega
      have hnone := rfind_char_eq_none_of_count_zero as c hcnt
      rw [find_char, if_pos (by simp [hb])] at hf
      rw [rfind_char, hnone, hb] at hr
      simp at hf hr
      omega

/-- C3 (counterexample): on the dotless input `"Baz"`, qualified-name
resolution does not produce a `MalformedTypeReference` error value — the
Rust `From` impl has no error return at all; its `find('.').unwrap()`
panics, which aborts the process. `none` is exactly that panic in this
embedding, refuting "fails with a MalformedTypeReference error … does not
crash the process". -/
theorem C3_counterexample : FullyQualifiedTypeName.fromString "Baz" = none := by
  rfl

/-- C3 (amended): for every input string containing fewer than two dots,
qualified-name resolution panics — `unwrap()` on a missing dot position
for zero dots, an out-of-range slice for exactly one dot — aborting the
process; no recoverable `MalformedTypeReference` error value exists in
the code. -/
theorem C3_few_dots_panic (s : String) (h : s.data.count '.' < 2) :
    FullyQualifiedTypeName.fromString s = none := by
  unfold FullyQualifiedTypeName.fromString
  rcases hf : find_char s.data '.' with _ | start
  · rfl
  · rcases hr : rfind_char s.data '.' with _ | stop
    · rfl
    · have hle : stop ≤ start :=
        rfind_le_find_of_count_le_one s.data '.' (by omega) start stop hf hr
      simp only []
      rw [if_neg (by omega)]

/-- C3 (witness): the amended theorem applied to the concrete dotless
input `"Baz"`. -/
theorem C3_witness :
    ("Baz".data.count '.' < 2) ∧ FullyQualifiedTypeName.fromString "Baz" = none :=
  ⟨by decide, C3_few_dots_panic "Baz" (by decide)⟩

/-- C8: comment lookup matches only exactly-equal paths. When no stored
location's path equals the target — in particular when some paths are
merely proper prefixes of it — the result is the empty string; when some
location's path is exactly equal, the result is that entry's stored
leading-comment text (prost's getter defaults an absent comment to `""`). -/
theorem C8_comment_lookup (info : SourceCodeInfo) (path : List Int) :
    ((∀ l ∈ info.location, l.path ≠ path) → get_description info path = "")
  ∧ ((∃ l ∈ info.location, l.path = path) →
      ∃ l ∈ info.location, l.path = path ∧
        get_description info path = l.leading_comments.getD "") := by
  constructor
  · intro h
    have hnone : info.location.find? (fun l => l.path == path) = none := by
      rw [List.find?_eq_none]
      intro x hx
      simpa using h x hx
    simp [get_description, hnone]
  · rintro ⟨l, hl, hlp⟩
    rcases hfind : info.location.find? (fun loc => loc.path == path) with _ | l₀
    · exfalso
      exact (by simpa using List.find?_eq_none.mp hfind l hl : l.path ≠ path) hlp
    · refine ⟨l₀, List.mem_of_find?_eq_some hfind, ?_, ?_⟩
      · simpa using List.find?_some hfind
      · simp [get_description, hfind]

/-- The concrete comment table of the C8 witness: entries at paths `[4]`
and `[4, 0]`, both proper prefixes of the target `[4, 0, 2]`. -/
def prefixInfo : SourceCodeInfo :=
  ⟨[⟨[4], some "pref", none⟩, ⟨[4, 0], some "doc", none⟩]⟩

/-- C8 (witness): at the concrete table, the unmatched target `[4, 0, 2]`
(whose proper prefixes do appear) yields `""`, and the matched target
`[4, 0]` yields the stored text. -/
theorem C8_witness :
    get_description prefixInfo [4, 0, 2] = ""
  ∧ ∃ l ∈ prefixInfo.location, l.path = [4, 0] ∧
      get_description prefixInfo [4, 0] = l.leading_comments.getD "" :=
  ⟨(C8_comment_lookup prefixInfo [4, 0, 2]).1 (by decide),
   (C8_comment_lookup prefixInfo [4, 0]).2 ⟨⟨[4, 0], some "doc", none⟩, by decide, rfl⟩⟩

/-- C10: when a comment-table entry `l` is attached at a path, the built
enum value stores `l`'s trailing comment with trailing whitespace removed
(`trim_end()`), while its leading comment, a built message field's
leading and trailing comments, and the leading comment returned by
`get_description` are all stored verbatim, untrimmed. -/
theorem C10_trim_end (value : EnumValueDescriptorProto) (field : FieldDescriptorProto)
    (fb : Field) (info : SourceCodeInfo) (path : List Int) (l : Location)
    (hfind : info.location.find? (fun loc => loc.path == path) = some l) :
    (EnumValue.fromDesc value info path).trailing_comments
        = trim_end (l.trailing_comments.getD "")
  ∧ (EnumValue.fromDesc value info path).leading_comments = l.leading_comments.getD ""
  ∧ (Field.fromDesc field info path = some fb →
      fb.trailing_comments = l.trailing_comments.getD ""
      ∧ fb.leading_comments = l.leading_comments.getD "")
  ∧ get_description info path = l.leading_comments.getD "" := by
  refine ⟨?_, ?_, ?_, ?_⟩
  · simp [EnumValue.fromDesc, hfind]
  · simp [EnumValue.fromDesc, hfind]
  · intro h
    rcases hft : FieldType.fromDesc field with _ | ty
    · simp [Field.fromDesc, hft] at h
    · rw [Field.fromDesc, hft] at h
      simp [Option.bind, hfind] at h
      subst h
      exact ⟨rfl, rfl⟩
  · simp [get_description, hfind]

/-- The single-entry comment table of the C10 witness, whose trailing
comment carries trailing whitespace. -/
def trimInfo : SourceCodeInfo := ⟨[⟨[5, 0, 2, 0], some " lead ", some " tr \n"⟩]⟩

/-- The field descriptor of the C10 witness (a plain string field). -/
def plainFieldDesc : FieldDescriptorProto :=
  { name := some "s", number := some 1, label := none, ty := some .string,
    type_name := none, proto3_optional := none }

/-- C10 (witness): at the concrete entry with trailing comment
`" tr \n"`, the enum value stores `" tr"` while the field keeps
`" tr \n"` and both leading comments keep `" lead "`. -/
theorem C10_witness :
    (EnumValue.fromDesc ⟨some "A", some 0⟩ trimInfo [5, 0, 2, 0]).trailing_comments = " tr"
  ∧ (EnumValue.fromDesc ⟨some "A", some 0⟩ trimInfo [5, 0, 2, 0]).leading_comments = " lead "
  ∧ ((Field.fromDesc plainFieldDesc trimInfo [5, 0, 2, 0]).map
      (fun f => (f.trailing_comments, f.leading_comments))) = some (" tr \n", " lead ") := by
  have h := C10_trim_end ⟨some "A", some 0⟩ plainFieldDesc
    { name := "s", ty := .wellKnown .string, number := 1, optional := false,
      repeated := false, leading_comments := " lead ", trailing_comments := " tr \n" }
    trimInfo [5, 0, 2, 0] ⟨[5, 0, 2, 0], some " lead ", some " tr \n"⟩ rfl
  refine ⟨?_, h.2.1, ?_⟩
  · rw [h.1]
    rfl
  · have hf := h.2.2.1 rfl
    rfl

/-! ## Stability of the embedded sort. `Vec::sort_by` is stable; the
insertion sort modelling it keeps elements satisfying any predicate `q`
that is a single "equivalence class" of the order (any two `q`-elements
are mutually `r`-related) in their original relative order. -/

theorem filter_orderedInsert_of_not {α : Type} (r : α → α → Prop) [DecidableRel r]
    (q : α → Bool) (x : α) (l : List α) (hx : q x = false) :
    (l.orderedInsert r x).filter q = l.filter q := by
  induction l with
  | nil => simp [List.orderedInsert, hx]
  | cons b t ih =>
    by_cases hr : r x b
    · simp [List.orderedInsert, hr, hx]
    · simp only [List.orderedInsert, if_neg hr, List.filter_cons]
      rw [ih]

theorem filter_orderedInsert_of_mem {α : Type} (r : α → α → Prop) [DecidableRel r]
    (q : α → Bool) (x : α) (l : List α) (hx : q x = true)
    (hq : ∀ b, ¬r x b → q b = false) :
    (l.orderedInsert r x).filter q = x :: l.filter q := by
  induction l with
  | nil => simp [List.orderedInsert, hx]
  | cons b t ih =>
    by_cases hr : r x b
    · simp [List.orderedInsert, hr, hx]
    · rw [List.orderedInsert, if_neg hr]
      simp only [List.filter_cons, hq b hr]
      rw [ih]
      simp

theorem filter_insertionSort {α : Type} (r : α → α → Prop) [DecidableRel r]
    (q : α → Bool) (l : List α) (hcond : ∀ x b, q x = true → q b = true → r x b) :
    (l.insertionSort r).filter q = l.filter q := by
  induction l with
  | nil => rfl
  | cons a t ih =>
    rcases ha : q a with _ | _
    · rw [List.insertionSort, filter_orderedInsert_of_not r q a _ ha,
        List.filter_cons, ha, ih]
      simp
    · rw [List.insertionSort, filter_orderedInsert_of_mem r q a _ ha
        (fun b hb => by rcases hqb : q b with _ | _; exact rfl;
                        exact absurd (hcond a b ha hqb) hb),
        List.filter_cons, ha, ih]
      simp

/-- C7: fields of every successfully built message are sorted by
ascending field number, and enum values of every built enum are sorted by
ascending number with values sharing a number kept in their declaration
order: filtering any single number out of the sorted list yields exactly
the same subsequence as filtering it out of the as-declared build. -/
theorem C7_sorted_and_stable :
    (∀ (d : DescriptorProto) (idx : Int) (info : SourceCodeInfo) (depth : Nat)
        (mt : MessageType),
      MessageType.fromDesc d idx info depth = some mt →
      List.Sorted Field.numberLE mt.fields ∧
      ∃ fs, d.field.enum.mapM
          (fun p => Field.fromDesc p.2 info [4, idx, 2, Int.ofNat p.1]) = some fs ∧
        ∀ n : Int, mt.fields.filter (fun f => f.number == n)
          = fs.filter (fun f => f.number == n))
  ∧ (∀ (e : EnumDescriptorProto) (idx : Int) (info : SourceCodeInfo),
      List.Sorted EnumValue.numberLE (EnumType.fromDesc e idx info).values ∧
      ∀ n : Int, (EnumType.fromDesc e idx info).values.filter (fun v => v.number == n)
        = (e.value.enum.map
            (fun p => EnumValue.fromDesc p.2 info [5, idx, 2, Int.ofNat p.1])).filter
            (fun v => v.number == n)) := by
  constructor
  · intro d idx info depth mt h
    rcases d with ⟨name, dfields, dnested, denums⟩
    rw [MessageType.fromDesc] at h
    simp only [Option.bind_eq_bind, Option.bind_eq_some] at h
    rcases h with ⟨fs, hfs, nested, hnested, hmt⟩
    injection hmt with hmt
    subst hmt
    constructor
    · exact List.sorted_insertionSort Field.numberLE fs
    · refine ⟨fs, hfs, fun n => ?_⟩
      exact filter_insertionSort Field.numberLE (fun f => f.number == n) fs
        (fun x b hx hb => by
          have hxn : x.number = n := by simpa using hx
          have hbn : b.number = n := by simpa using hb
          show x.number ≤ b.number
          omega)
  · intro e idx info
    constructor
    · exact List.sorted_insertionSort EnumValue.numberLE _
    · intro n
      exact filter_insertionSort EnumValue.numberLE (fun v => v.number == n) _
        (fun x b hx hb => by
          have hxn : x.number = n := by simpa using hx
          have hbn : b.number = n := by simpa using hb
          show x.number ≤ b.number
          omega)

/-- The message descriptor of the C7 witness: three plain fields declared
with numbers 3, 1, 2. -/
def unsortedDesc : DescriptorProto :=
  .mk (some "M")
    [{ name := some "a", number := some 3, label := none, ty := some .string,
       type_name := none, proto3_optional := none },
     { name := some "b", number := some 1, label := none, ty := some .string,
       type_name := none, proto3_optional := none },
     { name := some "c", number := some 2, label := none, ty := some .string,
       type_name := none, proto3_optional := none }] [] []

/-- C7 (witness): the amended-free theorem applied at the concrete
message with field numbers `[3, 1, 2]`, which builds with fields sorted
to `[1, 2, 3]`. -/
theorem C7_witness :
    List.Sorted Field.numberLE
      ((MessageType.fromDesc unsortedDesc 0 ⟨[]⟩ 0).getD (.mk "" "" [] [] 0)).fields
  ∧ ((MessageType.fromDesc unsortedDesc 0 ⟨[]⟩ 0).getD (.mk "" "" [] [] 0)).fields.map
      (fun f => f.number) = [1, 2, 3] := by
  have h := C7_sorted_and_stable.1 unsortedDesc 0 ⟨[]⟩ 0
    ((MessageType.fromDesc unsortedDesc 0 ⟨[]⟩ 0).getD (.mk "" "" [] [] 0)) (by rfl)
  exact ⟨h.1, by rfl⟩

/-! ## Concrete type graphs for the claims about `render::gather_types`. -/

/-- A message field referring to the custom type `.pkg.nm`, as
`Field::from` builds it from a descriptor whose `type_name` is
`".pkg.nm"`. -/
def refField (pkg nm : String) : Field :=
  { name := "f", ty := .custom ⟨⟨"." ++ pkg ++ "." ++ nm, pkg, nm⟩⟩, number := 1,
    optional := false, repeated := false, leading_comments := "", trailing_comments := "" }

/-- Cyclic graph in package `p`: `M → N`, `N → O`, `O → M`. -/
def cycleM : Types := .message (.mk "M" "" [refField "p" "N"] [] 0)

def cycleN : Types := .message (.mk "N" "" [refField "p" "O"] [] 0)

def cycleO : Types := .message (.mk "O" "" [refField "p" "M"] [] 0)

def cycleTypes : AllTypes := [("p", [cycleM, cycleN, cycleO])]

/-- One full activation of `gather_types` on `M` in the cyclic graph
unfolds, in five machine steps, to the recursive activation on `N` with a
fresh empty accumulator. -/
theorem cycle_stepM (m : Nat) :
    Render.gather_step (m + 5) (.top cycleM) cycleTypes
      = ((Render.gather_step (m + 1) (.top cycleN) cycleTypes).bind
          (fun sub =>
            Render.gather_step (m + 1) (.bucket "N" [cycleO] ([] ++ cycleN :: sub)) cycleTypes)).bind
          (fun acc' => Render.gather_step (m + 3) (.fields [] acc') cycleTypes) := rfl

/-- One full activation on `N` unfolds to the recursive activation on
`O` with a fresh empty accumulator. -/
theorem cycle_stepN (m : Nat) :
    Render.gather_step (m + 6) (.top cycleN) cycleTypes
      = ((Render.gather_step (m + 1) (.top cycleO) cycleTypes).bind
          (fun sub =>
            Render.gather_step (m + 1) (.bucket "O" [] ([] ++ cycleO :: sub)) cycleTypes)).bind
          (fun acc' => Render.gather_step (m + 4) (.fields [] acc') cycleTypes) := rfl

/-- One full activation on `O` unfolds to the recursive activation on
`M` with a fresh empty accumulator. -/
theorem cycle_stepO (m : Nat) :
    Render.gather_step (m + 4) (.top cycleO) cycleTypes
      = ((Render.gather_step (m + 1) (.top cycleM) cycleTypes).bind
          (fun sub =>
            Render.gather_step (m + 1) (.bucket "M" [cycleN, cycleO] ([] ++ cycleM :: sub)) cycleTypes)).bind
          (fun acc' => Render.gather_step (m + 2) (.fields [] acc') cycleTypes) := rfl

/-- On the cyclic graph the collector runs out of any step budget: the
per-activation `result` vector is empty again in every recursive
activation, so the membership check never fires and the machine never
reaches a final state. -/
theorem cycle_gather_none : ∀ n,
    Render.gather_step n (.top cycleM) cycleTypes = none
  ∧ Render.gather_step n (.top cycleN) cycleTypes = none
  ∧ Render.gather_step n (.top cycleO) cycleTypes = none := by
  intro n
  induction n using Nat.strong_induction_on with
  | _ n ih =>
    refine ⟨?_, ?_, ?_⟩
    · rcases n with _ | _ | _ | _ | _ | m
      · rfl
      · rfl
      · rfl
      · rfl
      · rfl
      · show Render.gather_step (m + 5) (.top cycleM) cycleTypes = none
        rw [cycle_stepM m, (ih (m + 1) (by omega)).2.1]
        rfl
    · rcases n with _ | _ | _ | _ | _ | _ | m
      · rfl
      · rfl
      · rfl
      · rfl
      · rfl
      · rfl
      · show Render.gather_step (m + 6) (.top cycleN) cycleTypes = none
        rw [cycle_stepN m, (ih (m + 1) (by omega)).2.2]
        rfl
    · rcases n with _ | _ | _ | _ | m
      · rfl
      · rfl
      · rfl
      · rfl
      · show Render.gather_step (m + 4) (.top cycleO) cycleTypes = none
        rw [cycle_stepO m, (ih (m + 1) (by omega)).1]
        rfl

/-- C1 (counterexample): on the cyclic example `M → N, N → O, O → M` the
collector does not return `[N, O]` — a budget of 1000 machine steps (far
more than a terminating run would need for three types) is still
exhausted, refuting the claimed termination. -/
theorem C1_counterexample : Render.gather_types 1000 cycleM cycleTypes = none :=
  (cycle_gather_none 1000).1

/-- C1 (amended): on a cyclic field-reference graph the type-closure
collector does not terminate: for every step budget whatsoever the
embedding of `gather_types` on `M` (with `M → N`, `N → O`, `O → M`) runs
out of fuel. The `!result.contains(..)` membership check is made against
an activation-local `result` vector that is empty again inside every
recursive call, so the second encounter of an already-collected type is
recursed into, not skipped. -/
theorem C1_cycle_diverges (fuel : Nat) :
    Render.gather_types fuel cycleM cycleTypes = none :=
  (cycle_gather_none fuel).1

/-- Diamond-shaped acyclic graph in package `q`: `M → N`, `M → O`,
`N → P`, `O → P`. -/
def diamondM : Types := .message (.mk "M" "" [refField "q" "N", refField "q" "O"] [] 0)

def diamondN : Types := .message (.mk "N" "" [refField "q" "P"] [] 0)

def diamondO : Types := .message (.mk "O" "" [refField "q" "P"] [] 0)

def diamondP : Types := .message (.mk "P" ""
  [{ name := "s", ty := .wellKnown .string, number := 1, optional := false,
     repeated := false, leading_comments := "", trailing_comments := "" }] [] 0)

def diamondTypes : AllTypes := [("q", [diamondM, diamondN, diamondO, diamondP])]

/-- C2 (counterexample): the closure of `M` in the acyclic diamond
`M → N, M → O, N → P, O → P` contains `P` twice — once from the `N`
subtree and once from the `O` subtree — refuting duplicate-freeness for
a type reachable along two different field paths. -/
theorem C2_counterexample :
    Render.gather_types 50 diamondM diamondTypes
      = some [diamondN, diamondP, diamondO, diamondP]
  ∧ ([diamondN, diamondP, diamondO, diamondP].countP
      (fun t => Types.beq t diamondP)) = 2 :=
  ⟨rfl, rfl⟩

/-- C2 (amended): the collector's output is not duplicate-free in
general — a type reachable along two different field paths can occur
twice, because the membership check consults only the current
activation's local `result` (see the counterexample) — but an enum node
does contribute nothing: the closure of an enum node is empty, in one
machine step, for every budget and every index. -/
theorem C2_enum_contributes_nothing (fuel : Nat) (e : EnumType) (types : AllTypes) :
    Render.gather_types (fuel + 1) (.enum e) types = some [] := rfl

/-! ## Concrete data for the claims about `Method::from`. -/

/-- An empty comment table. -/
def infoEmpty : SourceCodeInfo := ⟨[]⟩

def reqType : Types := .message (.mk "Req" "" [] [] 0)

/-- A type named `Resp` living in package `a`. -/
def respInA : Types := .message (.mk "Resp" "defined in package a" [] [] 0)

/-- A distinct type, also named `Resp`, living in package `b`. -/
def respInB : Types := .message (.mk "Resp" "defined in package b" [] [] 0)

/-- Index with buckets `a ↦ [Req, Resp(a)]` and `b ↦ [Resp(b)]`. -/
def crossTypes : AllTypes := [("a", [reqType, respInA]), ("b", [respInB])]

/-- A method whose input lives in package `a` and whose output lives in
package `b`. -/
def crossMethod : MethodDescriptorProto :=
  { name := some "Call", input_type := some ".a.Req", output_type := some ".b.Resp",
    options := none, client_streaming := none, server_streaming := none }

/-- A method whose output references package `zzz`, which has no bucket
in `crossTypes` at all. -/
def phantomMethod : MethodDescriptorProto :=
  { name := some "Call", input_type := some ".a.Req", output_type := some ".zzz.Resp",
    options := none, client_streaming := none, server_streaming := none }

/-- A method whose input references package `nowhere`, which has no
bucket in `crossTypes`. -/
def lostMethod : MethodDescriptorProto :=
  { name := some "Call", input_type := some ".nowhere.Req", output_type := some ".b.Resp",
    options := none, client_streaming := none, server_streaming := none }

/-- C5: the shadowing bug of `Method::from` evaluated. `crossMethod`
declares output type `.b.Resp` and the index has the distinct type
`Resp` in bucket `b`, yet the built method's output type is the `Resp`
of bucket `a` — the input type's bucket — because
`let types = types.get(name.package).unwrap()` shadows the index with
the input's bucket before the output lookup. The claim (and protobuf
semantics) require the entry found under the output name's own package. -/
theorem C5_output_resolved_in_input_bucket :
    (Method.fromDesc crossMethod crossTypes [6, 0, 2] 0 infoEmpty).map
      (fun m => m.output_type) = some respInA
  ∧ lookupPkg crossTypes "b" = some [respInB]
  ∧ Types.beq respInA respInB = false :=
  ⟨rfl, rfl, rfl⟩

/-- C4 (counterexample): `phantomMethod`'s output qualified name
`.zzz.Resp` has no matching package bucket in the index, yet building
the method does **not** fail — it silently succeeds and resolves the
output to the `Resp` of the input's bucket `a`, refuting "fails the
whole generation with an UnresolvedTypeReference error". -/
theorem C4_counterexample :
    lookupPkg crossTypes "zzz" = none
  ∧ (Method.fromDesc phantomMethod crossTypes [6, 0, 2] 0 infoEmpty).map
      (fun m => m.output_type) = some respInA :=
  ⟨rfl, rfl⟩

/-- C4 (amended): the failure cases that do exist in `Method::from` are
panics, not error values (here `none`, the process abort): the method
build panics when the input name's package bucket is missing, when that
bucket has no type of the input's local name, or when the **input's**
bucket — the output's own package is never consulted — has no type of
the output's local name. -/
theorem C4_unresolved_panics (method : MethodDescriptorProto) (types : AllTypes)
    (path : List Int) (idx : Int) (info : SourceCodeInfo)
    (nameIn : FullyQualifiedTypeName)
    (hin : FullyQualifiedTypeName.fromString (method.input_type.getD "") = some nameIn) :
    (lookupPkg types nameIn.package = none →
      Method.fromDesc method types path idx info = none)
  ∧ (∀ bucket, lookupPkg types nameIn.package = some bucket →
      bucket.find? (fun ty => ty.has_name nameIn.name) = none →
      Method.fromDesc method types path idx info = none)
  ∧ (∀ bucket nameOut, lookupPkg types nameIn.package = some bucket →
      FullyQualifiedTypeName.fromString (method.output_type.getD "") = some nameOut →
      bucket.find? (fun ty => ty.has_name nameOut.name) = none →
      Method.fromDesc method types path idx info = none) := by
  refine ⟨?_, ?_, ?_⟩
  · intro h
    simp [Method.fromDesc, hin, h]
  · intro bucket hb hf
    simp [Method.fromDesc, hin, hb, hf]
  · intro bucket nameOut hb hout hf
    rw [Method.fromDesc]
    simp only [Option.bind_eq_bind, hin, Option.some_bind, hb, hout, hf]
    simp

/-- C4 (witness): the amended theorem applied to `lostMethod`, whose
input package `nowhere` has no bucket: the build panics (`none`). -/
theorem C4_witness : Method.fromDesc lostMethod crossTypes [6, 0, 2] 0 infoEmpty = none :=
  (C4_unresolved_panics lostMethod crossTypes [6, 0, 2] 0 infoEmpty
    ⟨".nowhere.Req", "nowhere", "Req"⟩ rfl).1 rfl

/-! ## Lemmas about the association-list index, supporting C6. -/

/-- A type of local name `nm` is reachable under package `pkg` in the
index: its bucket exists and contains a type answering to the name. -/
def reachable (buckets : AllTypes) (pkg nm : String) : Prop :=
  ∃ bucket, lookupPkg buckets pkg = some bucket ∧ ∃ t ∈ bucket, t.has_name nm = true

theorem lookup_insertAppend_self (ts : AllTypes) (k : String) (vs : List Types) :
    lookupPkg (insertAppend ts k vs) k = some ((lookupPkg ts k).getD [] ++ vs) := by
  induction ts with
  | nil => simp [insertAppend, lookupPkg]
  | cons e rest ih =>
    rcases e with ⟨k', b⟩
    rcases hk : (k' == k) with _ | _
    · simp only [insertAppend, hk, Bool.false_eq_true, if_false]
      simp only [lookupPkg, List.find?_cons, hk]
      exact ih
    · simp only [insertAppend, hk, if_true]
      simp only [lookupPkg, List.find?_cons, hk]
      rfl

theorem lookup_insertAppend_ne (ts : AllTypes) (k p : String) (vs : List Types)
    (hne : p ≠ k) : lookupPkg (insertAppend ts k vs) p = lookupPkg ts p := by
  induction ts with
  | nil =>
    have : (k == p) = false := by simpa using fun h => hne h.symm
    simp [insertAppend, lookupPkg, this]
  | cons e rest ih =>
    rcases e with ⟨k', b⟩
    rcases hk : (k' == k) with _ | _
    · simp only [insertAppend, hk, Bool.false_eq_true, if_false]
      simp only [lookupPkg, List.find?_cons]
      rcases hp : (k' == p) with _ | _
      · simpa [hp] using ih
      · simp [hp]
    · have hk' : k' = k := by simpa using hk
      have hp : (k' == p) = false := by
        subst hk'
        simpa using fun h => hne h.symm
      simp only [insertAppend, hk, if_true]
      simp only [lookupPkg, List.find?_cons, hp]

theorem reachable_insertAppend (ts : AllTypes) (k pkg nm : String) (vs : List Types)
    (h : reachable ts pkg nm) : reachable (insertAppend ts k vs) pkg nm := by
  rcases h with ⟨bucket, hb, t, ht, hn⟩
  by_cases hpk : pkg = k
  · subst hpk
    refine ⟨(lookupPkg ts pkg).getD [] ++ vs, lookup_insertAppend_self ts pkg vs, t, ?_, hn⟩
    rw [hb]
    exact List.mem_append_left _ ht
  · exact ⟨bucket, by rw [lookup_insertAppend_ne ts k pkg vs hpk]; exact hb, t, ht, hn⟩

theorem reachable_insertAppend_self (ts : AllTypes) (k nm : String) (vs : List Types)
    (t : Types) (ht : t ∈ vs) (hn : t.has_name nm = true) :
    reachable (insertAppend ts k vs) k nm :=
  ⟨(lookupPkg ts k).getD [] ++ vs, lookup_insertAppend_self ts k vs, t,
    List.mem_append_right _ ht, hn⟩

theorem mem_enumFrom_of_mem {α : Type} (a : α) :
    ∀ (l : List α) (n : Nat), a ∈ l → ∃ i, (i, a) ∈ l.enumFrom n := by
  intro l
  induction l with
  | nil => intro n h; cases h
  | cons x xs ih =>
    intro n h
    rcases List.mem_cons.mp h with rfl | h'
    · exact ⟨n, List.mem_cons_self _ _⟩
    · rcases ih (n + 1) h' with ⟨i, hi⟩
      exact ⟨i, List.mem_cons_of_mem _ hi⟩

theorem mem_enum_of_mem {α : Type} (a : α) (l : List α) (h : a ∈ l) :
    ∃ i, (i, a) ∈ l.enum :=
  mem_enumFrom_of_mem a l 0 h

theorem mapM_mem {α β : Type} (f : α → Option β) :
    ∀ (l : List α) (l' : List β), l.mapM f = some l' →
      ∀ a ∈ l, ∃ b ∈ l', f a = some b := by
  intro l
  induction l with
  | nil => intro l' _ a ha; cases ha
  | cons x xs ih =>
    intro l' h a ha
    rw [List.mapM_cons] at h
    simp only [Option.bind_eq_bind, Option.bind_eq_some, Option.pure_def,
      Option.some.injEq] at h
    rcases h with ⟨y, hy, ys, hys, rfl⟩
    rcases List.mem_cons.mp ha with rfl | ha'
    · exact ⟨y, List.mem_cons_self _ _, hy⟩
    · rcases ih ys hys a ha' with ⟨b, hb, hfb⟩
      exact ⟨b, List.mem_cons_of_mem _ hb, hfb⟩

/-- The local name of a built message is the descriptor's name. -/
theorem name_of_fromDesc (d : DescriptorProto) (idx : Int) (info : SourceCodeInfo)
    (depth : Nat) (mt : MessageType) (h : MessageType.fromDesc d idx info depth = some mt) :
    mt.name = d.name.getD "" := by
  rcases d with ⟨name, dfields, dnested, denums⟩
  rw [MessageType.fromDesc] at h
  simp only [Option.bind_eq_bind, Option.bind_eq_some] at h
  rcases h with ⟨fs, _, nested, _, hmt⟩
  injection hmt with hmt
  subst hmt
  rfl

/-- The depth of a built message is the builder's depth argument. -/
theorem depth_of_fromDesc (d : DescriptorProto) (idx : Int) (info : SourceCodeInfo)
    (depth : Nat) (mt : MessageType) (h : MessageType.fromDesc d idx info depth = some mt) :
    mt.depth = depth := by
  rcases d with ⟨name, dfields, dnested, denums⟩
  rw [MessageType.fromDesc] at h
  simp only [Option.bind_eq_bind, Option.bind_eq_some] at h
  rcases h with ⟨fs, _, nested, _, hmt⟩
  injection hmt with hmt
  subst hmt
  rfl

theorem depth_of_fromDescList (ds : List DescriptorProto) (idx : Int)
    (info : SourceCodeInfo) (depth : Nat) :
    ∀ ms, MessageType.fromDescList ds idx info depth = some ms →
      ∀ c ∈ ms, c.depth = depth := by
  induction ds with
  | nil =>
    intro ms h c hc
    rw [MessageType.fromDescList] at h
    injection h with h
    subst h
    cases hc
  | cons d rest ih =>
    intro ms h c hc
    rw [MessageType.fromDescList] at h
    simp only [Option.bind_eq_bind, Option.bind_eq_some, Option.some.injEq] at h
    rcases h with ⟨m, hm, tail, htail, rfl⟩
    rcases List.mem_cons.mp hc with rfl | hc'
    · exact depth_of_fromDesc d idx info depth c hm
    · exact ih tail htail c hc'

/-- Processing one more file never loses an already-reachable type. -/
theorem reachable_step (acc acc' : AllTypes) (proto : FileDescriptorProto)
    (pkg nm : String) (h : get_types_step acc proto = some acc')
    (hr : reachable acc pkg nm) : reachable acc' pkg nm := by
  rw [get_types_step] at h
  simp only [Option.bind_eq_bind, Option.bind_eq_some, Option.some.injEq] at h
  rcases h with ⟨info, _, msgs, _, rfl⟩
  exact reachable_insertAppend _ _ _ _ _ (reachable_insertAppend _ _ _ _ _ hr)

/-- Processing a file makes each of its top-level messages and enums
reachable under the file's package. -/
theorem reachable_step_adds (acc acc' : AllTypes) (proto : FileDescriptorProto)
    (h : get_types_step acc proto = some acc') :
    (∀ d ∈ proto.message_type, reachable acc' (proto.package.getD "") (d.name.getD ""))
  ∧ (∀ e ∈ proto.enum_type, reachable acc' (proto.package.getD "") (e.name.getD "")) := by
  rw [get_types_step] at h
  simp only [Option.bind_eq_bind, Option.bind_eq_some, Option.some.injEq] at h
  rcases h with ⟨info, hinfo, msgs, hmsgs, rfl⟩
  constructor
  · intro d hd
    rcases mem_enum_of_mem d proto.message_type hd with ⟨i, hi⟩
    rcases mapM_mem _ _ _ hmsgs (i, d) hi with ⟨y, hy, hfy⟩
    simp only [Option.map_eq_some'] at hfy
    rcases hfy with ⟨mt, hmt, rfl⟩
    have hname : (Types.message mt).has_name (d.name.getD "") = true := by
      have := name_of_fromDesc d (Int.ofNat i) info 0 mt hmt
      simp [Types.has_name, this]
    exact reachable_insertAppend _ _ _ _ _
      (reachable_insertAppend_self acc _ _ msgs _ hy hname)
  · intro e he
    rcases mem_enum_of_mem e proto.enum_type he with ⟨i, hi⟩
    have hmem : Types.enum (EnumType.fromDesc e (Int.ofNat i) info)
        ∈ proto.enum_type.enum.map
          (fun p => Types.enum (EnumType.fromDesc p.2 (Int.ofNat p.1) info)) :=
      List.mem_map_of_mem _ hi
    have hname : (Types.enum (EnumType.fromDesc e (Int.ofNat i) info)).has_name
        (e.name.getD "") = true := by
      simp [Types.has_name, EnumType.fromDesc]
    exact reachable_insertAppend_self _ _ _ _ _ hmem hname

/-- Folding over more files never loses an already-reachable type. -/
theorem reachable_fold (pkg nm : String) :
    ∀ (files : List FileDescriptorProto) (acc buckets : AllTypes),
      files.foldlM get_types_step acc = some buckets →
      reachable acc pkg nm → reachable buckets pkg nm := by
  intro files
  induction files with
  | nil =>
    intro acc buckets h hr
    simp only [List.foldlM_nil, Option.pure_def, Option.some.injEq] at h
    subst h
    exact hr
  | cons x xs ih =>
    intro acc buckets h hr
    rw [List.foldlM_cons] at h
    simp only [Option.bind_eq_bind, Option.bind_eq_some] at h
    rcases h with ⟨acc', hstep, hfold⟩
    exact ih acc' buckets hfold (reachable_step acc acc' x pkg nm hstep hr)

/-- After a successful fold, every file's top-level messages and enums
are reachable in the final index. -/
theorem reachable_fold_adds :
    ∀ (files : List FileDescriptorProto) (acc buckets : AllTypes),
      files.foldlM get_types_step acc = some buckets →
      ∀ proto ∈ files,
        (∀ d ∈ proto.message_type, reachable buckets (proto.package.getD "") (d.name.getD ""))
      ∧ (∀ e ∈ proto.enum_type, reachable buckets (proto.package.getD "") (e.name.getD "")) := by
  intro files
  induction files with
  | nil => intro acc buckets _ proto hp; cases hp
  | cons x xs ih =>
    intro acc buckets h proto hp
    rw [List.foldlM_cons] at h
    simp only [Option.bind_eq_bind, Option.bind_eq_some] at h
    rcases h with ⟨acc', hstep, hfold⟩
    rcases List.mem_cons.mp hp with rfl | hp'
    · have hadds := reachable_step_adds acc acc' proto hstep
      exact ⟨fun d hd => reachable_fold _ _ xs acc' buckets hfold (hadds.1 d hd),
             fun e he => reachable_fold _ _ xs acc' buckets hfold (hadds.2 e he)⟩
    · exact ih acc' buckets hfold proto hp'

/-- C6: after a successful index build, every **top-level** message and
enum of every input file is reachable by (package, local name) lookup;
and in every successfully built message, nested child message types are
stored inside the parent's `nested` list carrying an incremented depth
counter (0 = top-level). Nested message types are *not* flattened into
the package's list — see the counterexample, which exhibits a nested
message unreachable by lookup. -/
theorem C6_toplevel_reachable :
    (∀ (request : CodeGeneratorRequest) (buckets : AllTypes),
      get_types request = some buckets →
      ∀ proto ∈ request.proto_file,
        (∀ d ∈ proto.message_type, reachable buckets (proto.package.getD "") (d.name.getD ""))
      ∧ (∀ e ∈ proto.enum_type, reachable buckets (proto.package.getD "") (e.name.getD "")))
  ∧ (∀ (d : DescriptorProto) (idx : Int) (info : SourceCodeInfo) (depth : Nat)
        (mt : MessageType),
      MessageType.fromDesc d idx info depth = some mt →
      mt.depth = depth ∧ ∀ c ∈ mt.nested, c.depth = depth + 1) := by
  constructor
  · intro request buckets h
    exact reachable_fold_adds request.proto_file [] buckets h
  · intro d idx info depth mt h
    refine ⟨depth_of_fromDesc d idx info depth mt h, ?_⟩
    rcases d with ⟨name, dfields, dnested, denums⟩
    rw [MessageType.fromDesc] at h
    simp only [Option.bind_eq_bind, Option.bind_eq_some] at h
    rcases h with ⟨fs, _, nested, hnested, hmt⟩
    injection hmt with hmt
    subst hmt
    exact depth_of_fromDescList dnested idx info (depth + 1) nested hnested

/-- A file with one top-level message `M` containing a nested message
`N`, in package `p`. -/
def nestedDesc : DescriptorProto := .mk (some "M") [] [.mk (some "N") [] [] []] []

def nestedFile : FileDescriptorProto :=
  { name := some "f.proto", package := some "p", message_type := [nestedDesc],
    enum_type := [], source_code_info := some infoEmpty }

def nestedRequest : CodeGeneratorRequest := ⟨[nestedFile]⟩

/-- The index `get_types` builds for `nestedRequest`. -/
def nestedIndex : AllTypes := [("p", [Types.message (.mk "M" "" [] [.mk "N" "" [] [] 1] 0)])]

/-- C6 (counterexample): the nested message `N` is **not** reachable by
(package, local name) lookup after the index is built from
`nestedRequest`: it is stored only inside `M`'s `nested` list (at depth
1), the bucket `p` has no entry named `N`, and no bucket `p.M` exists,
refuting "every message … including nested message types … is reachable
by (package, local name) lookup". -/
theorem C6_counterexample :
    get_types nestedRequest = some nestedIndex
  ∧ ((lookupPkg nestedIndex "p").getD []).all (fun t => !(t.has_name "N")) = true
  ∧ lookupPkg nestedIndex "p.M" = none :=
  ⟨rfl, rfl, rfl⟩

/-- C6 (witness): the amended theorem applied to the concrete
`nestedRequest`: the top-level `M` is reachable, and the build of
`nestedDesc` stores its nested child at depth 1. -/
theorem C6_witness :
    reachable nestedIndex "p" "M"
  ∧ ∀ c ∈ ((MessageType.fromDesc nestedDesc 0 infoEmpty 0).getD (.mk "" "" [] [] 0)).nested,
      c.depth = 0 + 1 :=
  ⟨((C6_toplevel_reachable.1 nestedRequest nestedIndex rfl nestedFile
      (List.mem_cons_self _ _)).1 nestedDesc (List.mem_cons_self _ _)),
   (C6_toplevel_reachable.2 nestedDesc 0 infoEmpty 0
      ((MessageType.fromDesc nestedDesc 0 infoEmpty 0).getD (.mk "" "" [] [] 0)) rfl).2⟩

/-! ## Lemmas supporting C9. -/

theorem mapM_length {α β : Type} (f : α → Option β) :
    ∀ (l : List α) (l' : List β), l.mapM f = some l' → l'.length = l.length := by
  intro l
  induction l with
  | nil =>
    intro l' h
    simp only [List.mapM_nil, Option.pure_def, Option.some.injEq] at h
    subst h
    rfl
  | cons x xs ih =>
    intro l' h
    rw [List.mapM_cons] at h
    simp only [Option.bind_eq_bind, Option.bind_eq_some, Option.pure_def,
      Option.some.injEq] at h
    rcases h with ⟨y, _, ys, hys, rfl⟩
    simp [ih ys hys]

theorem mapM_get {α β : Type} (f : α → Option β) :
    ∀ (l : List α) (l' : List β), l.mapM f = some l' →
      ∀ i (hi : i < l.length) (hi' : i < l'.length),
        f (l.get ⟨i, hi⟩) = some (l'.get ⟨i, hi'⟩) := by
  intro l
  induction l with
  | nil => intro l' _ i hi; cases hi
  | cons x xs ih =>
    intro l' h i hi hi'
    rw [List.mapM_cons] at h
    simp only [Option.bind_eq_bind, Option.bind_eq_some, Option.pure_def,
      Option.some.injEq] at h
    rcases h with ⟨y, hy, ys, hys, rfl⟩
    match i with
    | 0 => exact hy
    | i + 1 => exact ih ys hys i (by simpa using hi) (by simpa using hi')

/-- `render::Method::from` changes neither the name nor the deprecation
flag of a method. -/
theorem fromProto_name_deprecated (fuel : Nat) (m : Method) (types : AllTypes)
    (rm : Render.Method) (h : Render.Method.fromProto fuel m types = some rm) :
    rm.name = m.name ∧ rm.deprecated = m.deprecated := by
  rw [Render.Method.fromProto] at h
  simp only [Option.bind_eq_bind, Option.bind_eq_some, Option.some.injEq] at h
  rcases h with ⟨g1, _, g2, _, rfl⟩
  exact ⟨rfl, rfl⟩

theorem length_filter_not_add {α : Type} (p : α → Bool) (l : List α) :
    (l.filter (fun x => !p x)).length + (l.filter p).length = l.length := by
  induction l with
  | nil => rfl
  | cons x xs ih =>
    rcases hx : p x with _ | _
    · simp only [List.filter_cons, hx]
      simp only [Bool.not_false, if_true, Bool.false_eq_true, if_false, List.length_cons]
      omega
    · simp only [List.filter_cons, hx]
      simp only [Bool.not_true, Bool.false_eq_true, if_false, if_true, List.length_cons]
      omega

/-- C9: a successfully built render service partitions the converted
methods — which correspond one-to-one, in declaration order, to the
original methods, keeping name and deprecation flag — into the
non-deprecated `methods` and the deprecated `deprecated_methods`
sublists: each sublist is the order-preserving filter of the converted
list (hence a sublist of it), and their lengths add up to the whole, so
each original method lands in exactly one sublist. -/
theorem C9_partition (fuel : Nat) (value : Service) (types : AllTypes)
    (s : Render.Service) (h : Render.Service.fromProto fuel value types = some s) :
    ∃ ms, value.methods.mapM (fun m => Render.Method.fromProto fuel m types) = some ms ∧
      ms.length = value.methods.length ∧
      (∀ i (hi : i < value.methods.length) (hi' : i < ms.length),
        (ms.get ⟨i, hi'⟩).name = (value.methods.get ⟨i, hi⟩).name ∧
        (ms.get ⟨i, hi'⟩).deprecated = (value.methods.get ⟨i, hi⟩).deprecated) ∧
      s.methods = ms.filter (fun m => !m.deprecated) ∧
      s.deprecated_methods = ms.filter (fun m => m.deprecated) ∧
      s.methods.length + s.deprecated_methods.length = ms.length ∧
      s.methods.Sublist ms ∧ s.deprecated_methods.Sublist ms := by
  rw [Render.Service.fromProto] at h
  simp only [Option.bind_eq_bind, Option.bind_eq_some, Option.some.injEq] at h
  rcases h with ⟨ms, hms, rfl⟩
  refine ⟨ms, hms, mapM_length _ _ _ hms, ?_, rfl, rfl,
    length_filter_not_add _ ms, List.filter_sublist _, List.filter_sublist _⟩
  intro i hi hi'
  exact fromProto_name_deprecated fuel _ types _ (mapM_get _ _ _ hms i hi hi')

/-- A message with one well-known field, used by the C9 witness. -/
def simpleMsg : Types := .message (.mk "X" ""
  [{ name := "s", ty := .wellKnown .string, number := 1, optional := false,
     repeated := false, leading_comments := "", trailing_comments := "" }] [] 0)

def simpleTypes : AllTypes := [("w", [simpleMsg])]

def methodActive : Method :=
  { name := "A", call_type := .unary, description := "", deprecated := false,
    input_type := simpleMsg, output_type := simpleMsg }

def methodDeprecated : Method :=
  { name := "B", call_type := .unary, description := "", deprecated := true,
    input_type := simpleMsg, output_type := simpleMsg }

def partService : Service :=
  { name := "S", package := "w", description := "", deprecated := false,
    methods := [methodActive, methodDeprecated] }

def renderedActive : Render.Method :=
  { name := "A", call_type := .unary, description := "", deprecated := false,
    input_types := [simpleMsg], output_types := [simpleMsg] }

def renderedDeprecated : Render.Method :=
  { name := "B", call_type := .unary, description := "", deprecated := true,
    input_types := [simpleMsg], output_types := [simpleMsg] }

def renderedService : Render.Service :=
  { name := "S", package := "w", description := "", deprecated := false,
    methods := [renderedActive], deprecated_methods := [renderedDeprecated] }

/-- C9 (witness): the partition theorem applied to the concrete service
with one active and one deprecated method. -/
theorem C9_witness :
    ∃ ms, partService.methods.mapM
        (fun m => Render.Method.fromProto 10 m simpleTypes) = some ms ∧
      ms.length = partService.methods.length ∧
      (∀ i (hi : i < partService.methods.length) (hi' : i < ms.length),
        (ms.get ⟨i, hi'⟩).name = (partService.methods.get ⟨i, hi⟩).name ∧
        (ms.get ⟨i, hi'⟩).deprecated = (partService.methods.get ⟨i, hi⟩).deprecated) ∧
      renderedService.methods = ms.filter (fun m => !m.deprecated) ∧
      renderedService.deprecated_methods = ms.filter (fun m => m.deprecated) ∧
      renderedService.methods.length + renderedService.deprecated_methods.length = ms.length ∧
      renderedService.methods.Sublist ms ∧ renderedService.deprecated_methods.Sublist ms :=
  C9_partition 10 partService simpleTypes renderedService rfl

end ProtocGenMdbook
